import Mathlib

/-!
# A verification development for the `arkhash` fixity tool

This file gives a shallow embedding, in Lean 4, of the core of the
`arkhash` content-hash database maintainer (Rust sources `src/filter.rs`,
`src/update.rs`, `src/verify.rs`, `src/util.rs`) and proves or refutes a
list of behavioural claims about it.

Strings of the Rust program are modelled as `List Char`; file contents are
modelled as a single `List Char` and text files on disk as
`Option (List Char)` (`none` = file absent).  Fallible operations return
`Except` values.  External processes (the `<algo>sum` hashing command) and
worker threads are modelled by explicit parameters constrained by the
interface the program relies on.
-/

namespace Arkhash

/-- A character accepted by the POSIX class `[[:xdigit:]]` used in the
database-line regexes of `filter.rs` and `util.rs`. -/
def isXDigit (c : Char) : Bool :=
  ('0' ≤ c && c ≤ '9') || ('a' ≤ c && c ≤ 'f') || ('A' ≤ c && c ≤ 'F')

/-- A character matched by the regex class `\s` (Unicode whitespace, as in
the Rust `regex` crate). -/
def isRegexSpace (c : Char) : Bool :=
  c = ' ' || c = '\t' || c = '\n' || c = '\r' || c = '\x0b' || c = '\x0c' ||
  c.val = 0x85 || c.val = 0xA0 || c.val = 0x1680 ||
  (0x2000 ≤ c.val && c.val ≤ 0x200A) ||
  c.val = 0x2028 || c.val = 0x2029 || c.val = 0x202F || c.val = 0x205F ||
  c.val = 0x3000

/-- Split a character list at every `'\n'`.  Auxiliary to `rustLines`;
always returns at least one (possibly empty) part, so prepending a
non-newline character extends the first part (`headI`/`tail` stand for
the match on the never-empty recursive result). -/
def splitNl : List Char → List (List Char)
  | [] => [[]]
  | c :: cs =>
    if c = '\n' then [] :: splitNl cs
    else (c :: (splitNl cs).headI) :: (splitNl cs).tail

/-- Remove one trailing `'\r'`, as Rust's `BufRead::lines` does on each
line. -/
def stripCr (l : List Char) : List Char :=
  if l.getLast? = some '\r' then l.dropLast else l

/-- The lines of a file's contents, with the semantics of Rust's
`BufRead::lines()` / `str::lines()`: split at `'\n'`, a trailing newline
produces no final empty line, and a trailing `'\r'` is removed from each
line. -/
def rustLines (cs : List Char) : List (List Char) :=
  let parts := splitNl cs
  (if parts.getLast? = some [] then parts.dropLast else parts).map stripCr

/-- One attempt of the database-line regex
`([[:xdigit:]]{n})\s\s(.*)$` at start offset `j` of a line: `n` hex
digits, two whitespace characters, then `.*$` which must reach the end of
the haystack without crossing a `'\n'`.  Returns the two capture groups
(digest, path). -/
def matchAt (n : Nat) (cs : List Char) (j : Nat) : Option (List Char × List Char) :=
  let tail := cs.drop j
  let dig := tail.take n
  let ws := (tail.drop n).take 2
  let rest := tail.drop (n + 2)
  if dig.length = n && dig.all isXDigit && ws.length = 2 && ws.all isRegexSpace
     && rest.all (fun c => c ≠ '\n')
  then some (dig, rest) else none

/-- `Regex::captures` for the database-line pattern: the leftmost start
offset at which `matchAt` succeeds, as in the leftmost-first matching of
the Rust `regex` crate. -/
def reCaptures (n : Nat) (cs : List Char) : Option (List Char × List Char) :=
  (List.range (cs.length + 1)).findSome? (matchAt n cs)

/-- The digest length (in hex characters) associated to a recognized
algorithm name; `none` for an unrecognized algorithm.  This is the common
content of the `match opts.algorithm` tables in `Filter::new`
(`filter.rs`) and `regex_from_opts` (`util.rs`). -/
def algoHexLen : String → Option Nat
  | "sha1" => some 40
  | "md5" => some 32
  | "sha224" => some 56
  | "sha256" => some 64
  | "sha384" => some 96
  | "sha512" => some 128
  | _ => none

/-! ## IncrementalFilter (`filter.rs`) -/

/-- The set (as a list; membership is what matters, mirroring the
`HashMap<String, bool>` of `filter.rs`) of paths already recorded in the
database file: `Filter::new` runs the algorithm's regex over every line of
the database and keeps the path capture of each matching line; lines that
fail to match are skipped. -/
def filterAlready (n : Nat) (content : List Char) : List (List Char) :=
  (rustLines content).filterMap (fun l => (reCaptures n l).map (·.2))

/-- `Filter::next` (`filter.rs`): a candidate line survives iff it is not
among the already-recorded paths and is not the database file's own
rooted name `./<algo>sum.txt`. -/
def filterKeeps (n : Nat) (algo : String) (content : List Char) (line : List Char) : Bool :=
  !(filterAlready n content).contains line &&
  line != ("./" ++ algo ++ "sum.txt").toList

/-- `Filter::new` (`filter.rs`): open the database file for
read/append/create (`openOk = false` models an OS-level open failure;
an absent file, `dbFile = none`, is created empty), then look up the
algorithm's digest-length pattern, then parse the database.  Errors are
the two `&'static str` values returned by the source. -/
def FilterNew (dbFile : Option (List Char)) (openOk : Bool) (algo : String) :
    Except String (List (List Char)) :=
  if !openOk then .error "Could not open _algorithm_sum.txt"
  else
    match algoHexLen algo with
    | none => .error "Could not recognize hashing algorithm"
    | some n => .ok (filterAlready n (dbFile.getD []))

/-! ## UpdatePipeline (`update.rs`) -/

/-- `update_hashsums` (`update.rs`), at the level of the database file's
contents: the filter's already-set is computed once from the existing
contents, every emitted path that survives the filter is hashed by the
external `<algo>sum` command (`hashOut`, whose raw stdout is written
verbatim), and the outputs are appended to the file. -/
def updateHashsums (tree : List (List Char)) (hashOut : List Char → List Char)
    (n : Nat) (algo : String) (db : List Char) : List Char :=
  db ++ ((tree.filter (filterKeeps n algo db)).map hashOut).flatten

/-- `update_directories` (`update.rs`), batch (`subdir_mode`) branch: the
directories selected for processing are exactly the directory entries of
the batch root — every one of them; the function reads no ignore file. -/
def updateDirectoriesBatchDirs (entries : List (List Char × Bool)) : List (List Char) :=
  (entries.filter (fun e => e.2)).map (·.1)

/-! ## VerifyPipeline (`verify.rs`) -/

/-- A result sent by a worker over a task's channel:
`Result<(String, String), HashError>` — on success the raw formatted
digest line produced for the file together with the expected digest the
task carried. -/
inductive TaskResult where
  | ok (hashline : List Char) (cmp : List Char)
  | err (msg : List Char)
deriving DecidableEq, Repr

/-- The tasks enqueued for one directory by `verify_directory_oneshot`:
every database line matching the algorithm's regex yields an
(expected digest, path) pair; other lines yield no task. -/
def tasksFromDb (n : Nat) (content : List Char) : List (List Char × List Char) :=
  (rustLines content).filterMap (reCaptures n)

/-- One step of the result-drain loop of `verify_directory_oneshot`
(acting on the pair of accumulated `failed_paths` and the `success`
flag): a success result has its trailing character popped and is
re-parsed with the algorithm's regex; a differing re-derived digest
records the captured path and clears `success`; a result whose line does
not match the regex is ignored; an error result records its message and
clears `success`. -/
def drainStep (n : Nat) (acc : List (List Char) × Bool) (r : TaskResult) :
    List (List Char) × Bool :=
  match r with
  | .ok hashline cmp =>
    match reCaptures n hashline.dropLast with
    | some (newHash, pathCap) =>
      if newHash ≠ cmp then (acc.1 ++ [pathCap], false) else acc
    | none => acc
  | .err e => (acc.1 ++ [e], false)

/-- The whole drain loop: fold `drainStep` over the received results,
starting from no failed paths and `success = true`. -/
def drainAll (n : Nat) (rs : List TaskResult) : List (List Char) × Bool :=
  rs.foldl (drainStep n) ([], true)

/-- The name of the per-directory failure detail file written by
`inform_directory_bad`: `to_check_<dir>.txt`, where the directory string
has its first two characters stripped when longer than two characters. -/
def toCheckDetailName (workdir : List Char) : List Char :=
  "to_check_".toList ++ (if workdir.length > 2 then workdir.drop 2 else workdir)
    ++ ".txt".toList

/-- The externally visible outcome of `verify_directory` for one
directory: the lines appended to the known-good ledger, to the known-bad
ledger, and to the per-directory `to_check_<dir>.txt` detail file, plus
the exit-code contribution sent over the channel. -/
structure VerifyDirResult where
  goodLedgerAppend : List (List Char)
  badLedgerAppend : List (List Char)
  detailAppend : List (List Char)
  sentCode : Nat
deriving DecidableEq, Repr

/-- `verify_directory` (`verify.rs`): drain the results; on success append
the directory to the known-good ledger (batch mode only) and send 0; on
failure append it to the known-bad ledger (batch mode only), write every
failed path to the detail file, and send 1. -/
def verifyDirectory (subdirMode : Bool) (workdir : List Char) (n : Nat)
    (rs : List TaskResult) : VerifyDirResult :=
  let res := drainAll n rs
  if res.2 then
    { goodLedgerAppend := if subdirMode then [workdir] else []
      badLedgerAppend := [], detailAppend := [], sentCode := 0 }
  else
    { goodLedgerAppend := []
      badLedgerAppend := if subdirMode then [workdir] else []
      detailAppend := res.1, sentCode := 1 }

/-- Modelled from the spec: `read_paths_from_file` is declared in
`util.rs` but its body is not among the provided sources; per the spec the
ledger files hold "one directory path per line", so reading one returns
its lines. -/
def readPathsFromFile (content : List Char) : List (List Char) :=
  rustLines content

/-- A directory entry of the batch root as inspected by
`gather_directories_to_process`: its path, whether it is a directory, and
whether `<path>/<algo>sum.txt` exists and is a regular file. -/
structure DirEntry where
  path : List Char
  isDir : Bool
  sumFileIsFile : Bool
deriving DecidableEq, Repr

/-- `gather_directories_to_process` (`verify.rs`): a directory entry of
the working directory is selected iff it is a directory, its path is in
neither the known-good nor the known-bad list, and its database file
exists as a regular file. -/
def gatherDirectoriesToProcess (entries : List DirEntry)
    (goodList badList : List (List Char)) : List (List Char) :=
  (entries.filter (fun e =>
    e.isDir && !(goodList.contains e.path || badList.contains e.path)
      && e.sumFileIsFile)).map (·.path)

/-- The exit-code aggregation loop shared by both branches of
`verify_directories`: starting from an initial value, every received
non-zero code overwrites the current one. -/
def exitFold (init : Nat) (codes : List Nat) : Nat :=
  codes.foldl (fun e c => if c ≠ 0 then c else e) init

/-- `execute_threads_subdir` (`verify.rs`): gather the directories to
process against the two ledger files, start the exit code at 2 when the
known-bad ledger is non-empty and at 0 otherwise, and override it with
every non-zero per-directory code; `oc d` is whether directory `d`
verifies good this run (its drained `failed_paths` stays empty). -/
def batchVerifyExit (entries : List DirEntry) (goodContent badContent : List Char)
    (oc : List Char → Bool) : Nat :=
  let goodList := readPathsFromFile goodContent
  let badList := readPathsFromFile badContent
  let dirs := gatherDirectoriesToProcess entries goodList badList
  let init := if badList.isEmpty then 0 else 2
  exitFold init (dirs.map (fun d => if oc d then 0 else 1))

/-- `verify_directories` (`verify.rs`), single-directory branch: the one
`verify_directory` thread is always spawned (no ledger is read and no
database-file check happens first); the exit code folds its single sent
code over the initial value 0. -/
def singleVerifyExit (wd : List Char) (n : Nat) (rs : List TaskResult) : Nat :=
  exitFold 0 [(verifyDirectory false wd n rs).sentCode]

/-- `verify_directories`, single-directory branch, observed at the level
of the one directory: the sent exit-code contributions (one element per
processed directory) and the database file after the run
(`OpenOptions::read/append/create` materialises an absent file as empty).
`dbFile = none` models a directory with no database file. -/
def singleVerifyRun (wd : List Char) (n : Nat) (dbFile : Option (List Char))
    (results : List Char → List TaskResult) : List Nat × Option (List Char) :=
  let content := dbFile.getD []
  ([(verifyDirectory false wd n (results content)).sentCode], some content)

/-- `main` (`main.rs`), Verify arm: the match arm is the bare statement
`verify::verify_directories(opts);` — the returned `i32` (`computed`) is
discarded, `main` returns `()`, and no `process::exit` call exists in the
program, so the operating-system exit code of a verify-mode process is 0
whatever exit code the pipeline computed. -/
def mainVerifyProcessExit (_computed : Nat) : Nat := 0

/-! ## DirWalker byte stream (`update.rs` / `util.rs`, `impl Read`) -/

/-- The state of a `DirWalker` being consumed through `Read::read`: the
paths its iterator half will still yield, and the `unfinished_read`
buffer. -/
structure DirWalkerSt where
  pending : List (List Char)
  unfinishedRead : List Char
deriving DecidableEq, Repr

/-- `DirWalker::read` (`impl Read for DirWalker`, identical in
`update.rs` and `util.rs`): if `unfinished_read` is non-empty, copy
`min (buf.len, unfinished_read.len)` of its leading bytes into the buffer
and, when the copy is partial, *replace `unfinished_read` by the copied
prefix `[0..i]`* (the source keeps `[0..i]`, not the remainder, and keeps
the buffer unchanged when it was copied whole); otherwise serialize the
next path plus `'\n'`, copy its leading bytes, and on a partial copy
store the copied prefix `[0..i]` in `unfinished_read`. -/
def dwRead (st : DirWalkerSt) (bufLen : Nat) : List Char × DirWalkerSt :=
  if st.unfinishedRead.length > 0 then
    let i := min bufLen st.unfinishedRead.length
    let emitted := st.unfinishedRead.take i
    let ur := if i < st.unfinishedRead.length then st.unfinishedRead.take i
              else st.unfinishedRead
    (emitted, { st with unfinishedRead := ur })
  else
    match st.pending with
    | [] => ([], st)
    | p :: rest =>
      let pathStr := p ++ ['\n']
      let i := min bufLen pathStr.length
      let emitted := pathStr.take i
      let ur := if i < pathStr.length then pathStr.take i else []
      (emitted, { pending := rest, unfinishedRead := ur })

/-- The database file of one directory after `update_hashsums` ran on it:
the file is opened with read/append/create (an absent file comes into
existence empty) and the update appends to it, so afterwards the file
always exists. -/
def updateHashsumsFileAfter (tree : List (List Char)) (hashOut : List Char → List Char)
    (n : Nat) (algo : String) (dbFile : Option (List Char)) : Option (List Char) :=
  some (updateHashsums tree hashOut n algo (dbFile.getD []))

/-- A task result that the drain loop of `verify_directory_oneshot`
silently ignores: a success result whose formatted line, after popping
the trailing character, does not match the algorithm's regex. -/
def ignoredOk (n : Nat) : TaskResult → Bool
  | .ok hashline _ => (reCaptures n hashline.dropLast).isNone
  | .err _ => false

/-- The well-formed output of the external `<algo>sum` command for digest
`d` and path `p`: `<digest><two spaces><path><newline>` (spec §6 database
line format; `calculate_hash` in `util.rs` returns the command's raw
stdout). -/
def hashLineOf (d p : List Char) : List Char :=
  (d ++ ' ' :: ' ' :: p) ++ ['\n']

/-- Modelled from the spec: the worker loop (`execute_workers`, declared
in `util.rs` but not among the provided sources) computes the digest of
each task's file with the configured algorithm and sends
`Ok(<formatted digest line>, <expected digest>)` on the task's channel;
the formatted line is the hashing command's output (`hashLineOf`).
`dg p` is the digest the command currently computes for the file at
path `p`. -/
def workerResults (dg : List Char → List Char) (tasks : List (List Char × List Char)) :
    List TaskResult :=
  tasks.map (fun t => .ok (hashLineOf (dg t.2) t.2) t.1)

/-- The interface contract of the external hashing command for the file of
one verify task `t = (expected digest, path)`: the digest it outputs has
the algorithm's length and is hexadecimal, and the echoed path contains no
newline. -/
def wellFormedTask (n : Nat) (dg : List Char → List Char)
    (t : List Char × List Char) : Bool :=
  (dg t.2).length == n && (dg t.2).all isXDigit && !(t.2.contains '\n')

/-- One batch verify run's effect on the two ledger files: each gathered
directory is verified and its `verify_directory` outcome appends it to the
known-good or the known-bad ledger (`rsOf d` is the stream of task results
received for directory `d`). -/
def batchLedgerAfter (entries : List DirEntry) (good bad : List (List Char))
    (n : Nat) (rsOf : List Char → List TaskResult) :
    List (List Char) × List (List Char) :=
  let dirs := gatherDirectoriesToProcess entries good bad
  (good ++ dirs.flatMap (fun d => (verifyDirectory true d n (rsOf d)).goodLedgerAppend),
   bad ++ dirs.flatMap (fun d => (verifyDirectory true d n (rsOf d)).badLedgerAppend))

/-- A pre-existing database file whose single line is 40 hex characters
followed by two spaces, with no trailing newline. -/
def cexDb : List Char := List.replicate 40 'c' ++ [' ', ' ']

/-- A directory tree that enumerates a single file `./p`. -/
def cexTree : List (List Char) := [['.', '/', 'p']]

/-- A hashing command that outputs the well-formed line
`<40 times a>  <path>` plus newline for every file. -/
def cexHashOut : List Char → List Char :=
  fun p => hashLineOf (List.replicate 40 'a') p

/-! ## Helper lemmas -/

/-- The contribution of a single task result to `failed_paths`. -/
def contrib (n : Nat) (r : TaskResult) : List (List Char) :=
  match r with
  | .ok hashline cmp =>
    match reCaptures n hashline.dropLast with
    | some (newHash, pathCap) => if newHash ≠ cmp then [pathCap] else []
    | none => []
  | .err e => [e]

theorem drainStep_eq (n : Nat) (acc : List (List Char) × Bool) (r : TaskResult) :
    drainStep n acc r = (acc.1 ++ contrib n r, acc.2 && (contrib n r).isEmpty) := by
  cases r with
  | ok hashline cmp =>
    simp only [drainStep, contrib]
    cases h : reCaptures n hashline.dropLast with
    | none => simp
    | some pr =>
      obtain ⟨nh, pc⟩ := pr
      by_cases hne : nh ≠ cmp <;> simp [hne]
  | err e => simp [drainStep, contrib]

theorem isEmpty_append {α : Type} (l l' : List α) :
    (l ++ l').isEmpty = (l.isEmpty && l'.isEmpty) := by
  cases l <;> simp

theorem foldl_drainStep (n : Nat) (rs : List TaskResult)
    (l : List (List Char)) (s : Bool) :
    rs.foldl (drainStep n) (l, s) =
      (l ++ rs.flatMap (contrib n), s && (rs.flatMap (contrib n)).isEmpty) := by
  induction rs generalizing l s with
  | nil => simp
  | cons r rs ih =>
    rw [List.foldl_cons, drainStep_eq, ih]
    simp [List.append_assoc, Bool.and_assoc, isEmpty_append]

theorem drainAll_eq (n : Nat) (rs : List TaskResult) :
    drainAll n rs = (rs.flatMap (contrib n), (rs.flatMap (contrib n)).isEmpty) := by
  simpa using foldl_drainStep n rs [] true

theorem splitNl_cons_nl (cs : List Char) : splitNl ('\n' :: cs) = [] :: splitNl cs := by
  simp [splitNl]

theorem splitNl_cons_ne (a : Char) (cs : List Char) (ha : a ≠ '\n') :
    splitNl (a :: cs) = (a :: (splitNl cs).headI) :: (splitNl cs).tail := by
  simp [splitNl, ha]

theorem splitNl_ne_nil (cs : List Char) : splitNl cs ≠ [] := by
  cases cs with
  | nil => simp [splitNl]
  | cons c cs =>
    by_cases hc : c = '\n'
    · subst hc; rw [splitNl_cons_nl]; simp
    · rw [splitNl_cons_ne _ _ hc]; simp

theorem splitNl_no_newline (l : List Char) (h : ∀ c ∈ l, c ≠ '\n') :
    splitNl l = [l] := by
  induction l with
  | nil => rfl
  | cons a l ih =>
    have ha : a ≠ '\n' := h a (by simp)
    have hl := ih (fun c hc => h c (by simp [hc]))
    rw [splitNl_cons_ne _ _ ha, hl]
    rfl

theorem splitNl_line_append (l s : List Char) (h : ∀ c ∈ l, c ≠ '\n') :
    splitNl (l ++ '\n' :: s) = l :: splitNl s := by
  induction l with
  | nil => simpa using splitNl_cons_nl s
  | cons a l ih =>
    have ha : a ≠ '\n' := h a (by simp)
    have hl := ih (fun c hc => h c (by simp [hc]))
    rw [List.cons_append, splitNl_cons_ne _ _ ha, hl]
    rfl

theorem splitNl_two_le (cs : List Char) (h : '\n' ∈ cs) :
    2 ≤ (splitNl cs).length := by
  induction cs with
  | nil => simp at h
  | cons a cs ih =>
    by_cases ha : a = '\n'
    · subst ha
      rw [splitNl_cons_nl]
      have : 1 ≤ (splitNl cs).length := List.length_pos.mpr (splitNl_ne_nil cs)
      simp only [List.length_cons]
      omega
    · have hmem : '\n' ∈ cs := by
        rcases List.mem_cons.mp h with h1 | h2
        · exact absurd h1.symm ha
        · exact h2
      have h2 := ih hmem
      rw [splitNl_cons_ne _ _ ha]
      cases hcs : splitNl cs with
      | nil => exact absurd hcs (splitNl_ne_nil cs)
      | cons x xs =>
        rw [hcs] at h2
        simpa using h2

theorem splitNl_append_of_newline_end (c s : List Char)
    (h : c = [] ∨ c.getLast? = some '\n') :
    splitNl (c ++ s) = (splitNl c).dropLast ++ splitNl s := by
  induction c with
  | nil => simp [splitNl]
  | cons a c ih =>
    rcases h with h | h
    · simp at h
    cases c with
    | nil =>
      simp only [List.getLast?_singleton, Option.some.injEq] at h
      subst h
      rw [List.singleton_append, splitNl_cons_nl, splitNl_cons_nl]
      simp [splitNl]
    | cons b c' =>
      have hlast : (b :: c').getLast? = some '\n' := by
        rwa [List.getLast?_cons_cons] at h
      have ih' := ih (Or.inr hlast)
      have hmem : '\n' ∈ b :: c' := by
        have hg := List.getLast?_eq_getLast (b :: c') (by simp)
        rw [hg] at hlast
        have h2 : (b :: c').getLast (by simp) = '\n' := by simpa using hlast
        rw [← h2]
        exact List.getLast_mem _
      have hlen : 2 ≤ (splitNl (b :: c')).length := splitNl_two_le _ hmem
      by_cases ha : a = '\n'
      · subst ha
        rw [List.cons_append, splitNl_cons_nl, splitNl_cons_nl, ih',
          List.dropLast_cons_of_ne_nil (splitNl_ne_nil _)]
        simp
      · rw [List.cons_append, splitNl_cons_ne _ _ ha, splitNl_cons_ne _ _ ha, ih']
        cases hsp : splitNl (b :: c') with
        | nil => exact absurd hsp (splitNl_ne_nil _)
        | cons h' t' =>
          have ht' : t' ≠ [] := by
            intro hnil
            rw [hsp, hnil] at hlen
            simp at hlen
          rw [List.dropLast_cons_of_ne_nil ht']
          cases t' with
          | nil => exact absurd rfl ht'
          | cons u us => simp

theorem splitNl_getLast_nil (c : List Char)
    (h : c = [] ∨ c.getLast? = some '\n') :
    (splitNl c).getLast? = some [] := by
  have := splitNl_append_of_newline_end c [] h
  rw [List.append_nil] at this
  rw [this]
  have hterm : splitNl ([] : List Char) = [[]] := rfl
  rw [hterm]
  rw [List.getLast?_append_cons]
  simp

theorem rustLines_append (c s : List Char)
    (h : c = [] ∨ c.getLast? = some '\n') :
    rustLines (c ++ s) = rustLines c ++ rustLines s := by
  simp only [rustLines]
  rw [splitNl_append_of_newline_end c s h]
  have hC : (splitNl c).getLast? = some [] := splitNl_getLast_nil c h
  have hSne : splitNl s ≠ [] := splitNl_ne_nil s
  have hglast : ((splitNl c).dropLast ++ splitNl s).getLast? = (splitNl s).getLast? :=
    List.getLast?_append_of_ne_nil _ hSne
  rw [hglast]
  by_cases hS : (splitNl s).getLast? = some []
  · rw [if_pos hS, if_pos hS, if_pos hC,
      List.dropLast_append_of_ne_nil _ hSne, List.map_append]
  · rw [if_neg hS, if_neg hS, if_pos hC, List.map_append]

theorem rustLines_single_line (l : List Char) (hnl : ∀ c ∈ l, c ≠ '\n')
    (hcr : l.getLast? ≠ some '\r') :
    rustLines (l ++ ['\n']) = [l] := by
  unfold rustLines
  have : l ++ ['\n'] = l ++ '\n' :: [] := rfl
  rw [this, splitNl_line_append l [] hnl]
  have hterm : splitNl ([] : List Char) = [[]] := rfl
  rw [hterm]
  simp [stripCr, hcr]

theorem rustLines_flatten (lines : List (List Char))
    (h : ∀ l ∈ lines, (∀ c ∈ l, c ≠ '\n') ∧ l.getLast? ≠ some '\r') :
    rustLines ((lines.map (· ++ ['\n'])).flatten) = lines := by
  induction lines with
  | nil => rfl
  | cons l ls ih =>
    have hl := h l (by simp)
    have hls : ∀ x ∈ ls, (∀ c ∈ x, c ≠ '\n') ∧ x.getLast? ≠ some '\r' :=
      fun x hx => h x (by simp [hx])
    rw [List.map_cons, List.flatten_cons,
      rustLines_append (l ++ ['\n']) _ (Or.inr (by simp)),
      rustLines_single_line l hl.1 hl.2, ih hls]
    rfl

theorem reCaptures_wellformed (n : Nat) (d p : List Char)
    (hd : d.length = n) (hhex : d.all isXDigit = true)
    (hp : ∀ c ∈ p, c ≠ '\n') :
    reCaptures n (d ++ ' ' :: ' ' :: p) = some (d, p) := by
  have htake : (d ++ ' ' :: ' ' :: p).take n = d := List.take_left' hd
  have hdropn : (d ++ ' ' :: ' ' :: p).drop n = ' ' :: ' ' :: p :=
    List.drop_left' hd
  have hdropn2 : (d ++ ' ' :: ' ' :: p).drop (n + 2) = p := by
    have hsplit : d ++ ' ' :: ' ' :: p = (d ++ [' ', ' ']) ++ p := by simp
    rw [hsplit]
    exact List.drop_left' (by simp [hd])
  have hm : matchAt n (d ++ ' ' :: ' ' :: p) 0 = some (d, p) := by
    simp only [matchAt, List.drop_zero]
    simp only [htake, hdropn, hdropn2]
    have hws : ((' ' :: ' ' :: p).take 2) = [' ', ' '] := rfl
    rw [hws]
    have hrest : p.all (fun c => decide (c ≠ '\n')) = true := by
      rw [List.all_eq_true]
      intro c hc
      exact decide_eq_true (hp c hc)
    have hws2 : ([' ', ' '] : List Char).all isRegexSpace = true := by decide
    have hnm : '\n' ∉ p := fun hm => hp '\n' hm rfl
    simp [hd, hhex, hrest, hws2, hnm]
  unfold reCaptures
  rw [List.range_succ_eq_map, List.findSome?_cons]
  rw [hm]

theorem flatMap_congr_mem {α β : Type} (l : List α) (f g : α → List β)
    (h : ∀ a ∈ l, f a = g a) : l.flatMap f = l.flatMap g := by
  induction l with
  | nil => rfl
  | cons a l ih =>
    rw [List.flatMap_cons, List.flatMap_cons, h a (by simp),
      ih (fun x hx => h x (by simp [hx]))]

theorem filterMap_congr_mem {α β : Type} (l : List α) (f g : α → Option β)
    (h : ∀ a ∈ l, f a = g a) : l.filterMap f = l.filterMap g := by
  induction l with
  | nil => rfl
  | cons a l ih =>
    rw [List.filterMap_cons, List.filterMap_cons, h a (by simp),
      ih (fun x hx => h x (by simp [hx]))]

theorem contrib_worker (n : Nat) (dg : List Char → List Char)
    (t : List Char × List Char) (hwf : wellFormedTask n dg t = true) :
    contrib n (.ok (hashLineOf (dg t.2) t.2) t.1) =
      if dg t.2 = t.1 then [] else [t.2] := by
  simp only [wellFormedTask, Bool.and_eq_true, beq_iff_eq, Bool.not_eq_true',
    List.elem_eq_mem, decide_eq_false_iff_not] at hwf
  obtain ⟨⟨hlen, hhex⟩, hnm⟩ := hwf
  have hnl : ∀ c ∈ t.2, c ≠ '\n' := fun c hc he => hnm (he ▸ hc)
  have hdrop : (hashLineOf (dg t.2) t.2).dropLast
      = dg t.2 ++ ' ' :: ' ' :: t.2 := by
    unfold hashLineOf
    rw [List.dropLast_concat]
  have hcap := reCaptures_wellformed n (dg t.2) t.2 hlen hhex hnl
  simp only [contrib, hdrop, hcap]
  by_cases h : dg t.2 = t.1 <;> simp [h]

theorem exitFold_map {α : Type} (init : Nat) (l : List α) (p : α → Bool) :
    exitFold init (l.map (fun d => if p d then 0 else 1)) =
      if l.any (fun d => !p d) then 1 else init := by
  induction l generalizing init with
  | nil => simp [exitFold]
  | cons d l ih =>
    cases h : p d with
    | true =>
      have h0 : exitFold init ((d :: l).map (fun d => if p d then 0 else 1)) =
          exitFold init (l.map (fun d => if p d then 0 else 1)) := by
        simp [exitFold, h]
      rw [h0, ih]
      simp [h]
    | false =>
      have h1 : exitFold init ((d :: l).map (fun d => if p d then 0 else 1)) =
          exitFold 1 (l.map (fun d => if p d then 0 else 1)) := by
        simp [exitFold, h]
      rw [h1, ih]
      simp [h]

theorem all_eq_not_any_not {α : Type} (l : List α) (p : α → Bool) :
    l.all p = !(l.any (fun a => !p a)) := by
  induction l with
  | nil => rfl
  | cons a l ih => cases h : p a <;> simp [h, ih]

theorem batchVerifyExit_eq (entries : List DirEntry)
    (goodContent badContent : List Char) (oc : List Char → Bool) :
    batchVerifyExit entries goodContent badContent oc =
      if (gatherDirectoriesToProcess entries (readPathsFromFile goodContent)
            (readPathsFromFile badContent)).any (fun d => !oc d) then 1
      else if (readPathsFromFile badContent).isEmpty then 0 else 2 := by
  simp only [batchVerifyExit]
  rw [exitFold_map]

/-! ## Claim theorems -/

/-- C5: In batch verify mode the exit code starts at 2 when the known-bad
ledger is non-empty at the start of the run and at 0 when it is empty, and
whenever any directory processed in this run is classified Bad the final
exit code is 1, overriding the initial value (`execute_threads_subdir`,
`gather_directories_to_process`). -/
theorem batch_exit_start_and_override (entries : List DirEntry)
    (goodContent badContent : List Char) (oc : List Char → Bool) :
    batchVerifyExit entries goodContent badContent oc =
      if (gatherDirectoriesToProcess entries (readPathsFromFile goodContent)
            (readPathsFromFile badContent)).any (fun d => !oc d) then 1
      else if (readPathsFromFile badContent).isEmpty then 0 else 2 :=
  batchVerifyExit_eq entries goodContent badContent oc

/-- The exit code *returned by* `verify_directories` (not the process
exit code, which `main` discards — see `mainVerifyProcessExit`): the
returned value is 0 iff all verified directories were good and the
known-bad ledger was empty, 1 iff at least one directory failed this run,
and 2 iff nothing failed but unresolved prior failures remain; the
single-directory branch consults no ledger and returns 0 or 1 with the
one directory's outcome (`verify_directories`,
`execute_threads_subdir`). -/
theorem exit_code_policy (entries : List DirEntry)
    (goodContent badContent : List Char) (oc : List Char → Bool)
    (wd : List Char) (n : Nat) (rs : List TaskResult) :
    (batchVerifyExit entries goodContent badContent oc = 1 ↔
      (gatherDirectoriesToProcess entries (readPathsFromFile goodContent)
        (readPathsFromFile badContent)).any (fun d => !oc d) = true)
    ∧ (batchVerifyExit entries goodContent badContent oc = 0 ↔
      ((gatherDirectoriesToProcess entries (readPathsFromFile goodContent)
        (readPathsFromFile badContent)).all oc &&
        (readPathsFromFile badContent).isEmpty) = true)
    ∧ (batchVerifyExit entries goodContent badContent oc = 2 ↔
      ((gatherDirectoriesToProcess entries (readPathsFromFile goodContent)
        (readPathsFromFile badContent)).all oc &&
        !(readPathsFromFile badContent).isEmpty) = true)
    ∧ (singleVerifyExit wd n rs = if (drainAll n rs).2 then 0 else 1) := by
  have hb := batchVerifyExit_eq entries goodContent badContent oc
  have hall : ((gatherDirectoriesToProcess entries (readPathsFromFile goodContent)
      (readPathsFromFile badContent)).all oc) =
      !((gatherDirectoriesToProcess entries (readPathsFromFile goodContent)
      (readPathsFromFile badContent)).any (fun d => !oc d)) :=
    all_eq_not_any_not _ _
  refine ⟨?_, ?_, ?_, ?_⟩
  · rw [hb]
    cases h : (gatherDirectoriesToProcess entries (readPathsFromFile goodContent)
        (readPathsFromFile badContent)).any (fun d => !oc d) <;>
      cases h2 : (readPathsFromFile badContent).isEmpty <;> simp [h, h2]
  · rw [hb, hall]
    cases h : (gatherDirectoriesToProcess entries (readPathsFromFile goodContent)
        (readPathsFromFile badContent)).any (fun d => !oc d) <;>
      cases h2 : (readPathsFromFile badContent).isEmpty <;> simp [h, h2]
  · rw [hb, hall]
    cases h : (gatherDirectoriesToProcess entries (readPathsFromFile goodContent)
        (readPathsFromFile badContent)).any (fun d => !oc d) <;>
      cases h2 : (readPathsFromFile badContent).isEmpty <;> simp [h, h2]
  · cases h : (drainAll n rs).2 <;>
      simp [singleVerifyExit, verifyDirectory, exitFold, h]

/-- C1 (code bug): a batch verify run whose one gathered directory fails
verification computes exit code 1 in `execute_threads_subdir`, but the
Verify arm of `main` discards the returned value and `main` returns `()`,
so the process exit code is 0 — not the 1 the claim (and the repo's own
tests `verify_modified_test` / `verify_subdir_modified_test`, which
assert `fails_with(1)`) require. -/
theorem verify_exit_discarded_by_main :
    batchVerifyExit [⟨"./a".toList, true, true⟩] [] [] (fun _ => false) = 1
    ∧ mainVerifyProcessExit
        (batchVerifyExit [⟨"./a".toList, true, true⟩] [] [] (fun _ => false)) = 0
    ∧ mainVerifyProcessExit
        (batchVerifyExit [⟨"./a".toList, true, true⟩] [] [] (fun _ => false)) ≠ 1 := by
  refine ⟨by decide, rfl, by decide⟩

/-- C4 (code bug): in batch update mode the subdirectory `./ignore`, though
listed in the root's `.arkignore` file, is still selected for processing —
`update_directories` reads no ignore file and pushes every directory entry —
and the per-directory update then materialises a database file even in a
directory that had none. -/
theorem update_batch_ignores_arkignore :
    updateDirectoriesBatchDirs
        [("./ignore".toList, true), ("./.arkignore".toList, false),
         ("./test".toList, true)] =
      ["./ignore".toList, "./test".toList]
    ∧ (updateHashsumsFileAfter [] cexHashOut 40 "sha1" none).isSome = true := by
  constructor
  · rfl
  · rfl

/-- C7 (code bug): reading a `DirWalker` holding the single path `ab` with
a 2-byte buffer emits `ab`, and the next read emits `ab` again while
leaving the state unchanged — the already-delivered prefix is re-emitted
forever, the remainder `"\n"` is lost, and the concatenation of the reads
is not the newline-terminated record stream. -/
theorem dirwalker_read_duplicates_bytes :
    (dwRead ⟨[['a', 'b']], []⟩ 2).1 = ['a', 'b']
    ∧ (dwRead (dwRead ⟨[['a', 'b']], []⟩ 2).2 2).1 = ['a', 'b']
    ∧ (dwRead (dwRead ⟨[['a', 'b']], []⟩ 2).2 2).2 = (dwRead ⟨[['a', 'b']], []⟩ 2).2 := by
  refine ⟨rfl, rfl, rfl⟩

/-- C10: a success task result whose formatted line does not match the
algorithm's digest pattern leaves the drain accumulator untouched (no
failure is recorded, no comparison occurs), and a directory all of whose
results are such unparseable successes is classified Good. -/
theorem unparseable_ok_results_ignored (n : Nat) (rs : List TaskResult)
    (wd : List Char) (subdir : Bool) (acc : List (List Char) × Bool)
    (hashline cmp : List Char)
    (h1 : (reCaptures n hashline.dropLast).isNone = true)
    (h2 : rs.all (ignoredOk n) = true) :
    drainStep n acc (.ok hashline cmp) = acc
    ∧ verifyDirectory subdir wd n rs =
        { goodLedgerAppend := if subdir then [wd] else []
          badLedgerAppend := [], detailAppend := [], sentCode := 0 } := by
  have hnone : reCaptures n hashline.dropLast = none := by
    simpa [Option.isNone_iff_eq_none] using h1
  constructor
  · simp [drainStep, hnone]
  · have hflat : rs.flatMap (contrib n) = [] := by
      rw [List.flatMap_eq_nil_iff]
      intro r hr
      have := (List.all_eq_true.mp h2) r hr
      cases r with
      | ok hl c =>
        have hn : reCaptures n hl.dropLast = none := by
          simpa [ignoredOk, Option.isNone_iff_eq_none] using this
        simp [contrib, hn]
      | err e => simp [ignoredOk] at this
    unfold verifyDirectory
    rw [drainAll_eq, hflat]
    simp

/-- C8: for every algorithm name, recognized or not, `Filter::new`
succeeds iff the database file can be opened (for read/append/create) and
the algorithm has a digest-length pattern — i.e. it returns a recognized
error exactly when the open fails or the algorithm is unrecognized; an
absent database file behaves like an empty one; and, for a recognized
algorithm, a database consisting of lines that match no digest pattern is
accepted with an empty already-recorded set rather than rejected. -/
theorem filter_new_error_conditions (dbFile : Option (List Char)) (openOk : Bool)
    (algo : String) (n : Nat) (content : List Char)
    (hml : (rustLines content).all (fun l => (reCaptures n l).isNone) = true) :
    ((FilterNew dbFile openOk algo).isOk = (openOk && (algoHexLen algo).isSome))
    ∧ FilterNew none true algo = FilterNew (some []) true algo
    ∧ (algoHexLen algo = some n → FilterNew (some content) true algo = .ok []) := by
  refine ⟨?_, rfl, ?_⟩
  · cases openOk with
    | false => simp [FilterNew, Except.isOk, Except.toBool]
    | true =>
      cases h : algoHexLen algo with
      | none => simp [FilterNew, h, Except.isOk, Except.toBool]
      | some m => simp [FilterNew, h, Except.isOk, Except.toBool]
  · intro halgo
    have hempty : filterAlready n content = [] := by
      unfold filterAlready
      rw [List.filterMap_eq_nil_iff]
      intro l hl
      have := (List.all_eq_true.mp hml) l hl
      have hn : reCaptures n l = none := by
        simpa [Option.isNone_iff_eq_none] using this
      simp [hn]
    simp [FilterNew, halgo, hempty]

/-- C6 counterexample: in single-directory mode a directory with no
database file is not skipped — the run still produces (and sends) a
verification outcome for it, code 0, and the database file now exists,
created empty by the read/append/create open in
`verify_directory_oneshot`. -/
theorem single_mode_processes_missing_db :
    (singleVerifyRun "./d".toList 40 none (fun _ => [])).1 = [0]
    ∧ (singleVerifyRun "./d".toList 40 none (fun _ => [])).2 = some [] := by
  exact ⟨rfl, rfl⟩

/-- C6 amended: in batch mode a directory is selected for verification iff
it is a directory entry, its path is in neither the known-good nor the
known-bad list, and its database file exists (so it is skipped exactly
when one of these fails); in single-directory mode no skipping occurs:
exactly one outcome is always produced and a missing database file is
materialised as an empty one. -/
theorem verify_skip_conditions (entries : List DirEntry)
    (good bad : List (List Char)) (d wd : List Char) (n : Nat)
    (dbFile : Option (List Char)) (results : List Char → List TaskResult) :
    (d ∈ gatherDirectoriesToProcess entries good bad ↔
      ∃ e ∈ entries, (e.isDir = true ∧ ¬(e.path ∈ good ∨ e.path ∈ bad)
        ∧ e.sumFileIsFile = true) ∧ e.path = d)
    ∧ (singleVerifyRun wd n dbFile results).1.length = 1
    ∧ (singleVerifyRun wd n none results).2 = some [] := by
  refine ⟨?_, rfl, rfl⟩
  simp only [gatherDirectoriesToProcess, List.mem_map, List.mem_filter]
  constructor
  · rintro ⟨e, ⟨he, hcond⟩, hpath⟩
    refine ⟨e, he, ?_, hpath⟩
    simp only [Bool.and_eq_true, Bool.not_eq_true', Bool.or_eq_false_iff] at hcond
    refine ⟨hcond.1.1, ?_, hcond.2⟩
    rintro (hg | hb)
    · have := hcond.1.2.1
      simp [hg] at this
    · have := hcond.1.2.2
      simp [hb] at this
  · rintro ⟨e, he, ⟨hdir, hnot, hsum⟩, hpath⟩
    refine ⟨e, ⟨he, ?_⟩, hpath⟩
    simp only [Bool.and_eq_true, Bool.not_eq_true', Bool.or_eq_false_iff]
    refine ⟨⟨hdir, ?_, ?_⟩, hsum⟩
    · simp only [List.elem_eq_mem, decide_eq_false_iff_not]
      exact fun hg => hnot (Or.inl hg)
    · simp only [List.elem_eq_mem, decide_eq_false_iff_not]
      exact fun hb => hnot (Or.inr hb)

/-- C8 witness: at the unrecognized algorithm name `foo` construction is
not Ok (the unrecognized-algorithm error), while at `sha1` the
all-malformed database `garbage\n` is accepted with an empty
already-recorded set; the open-failure case is instantiated with
`openOk = false`. -/
theorem filter_new_error_conditions_witness :
    ((rustLines "garbage\n".toList).all (fun l => (reCaptures 40 l).isNone) = true)
    ∧ ((FilterNew (some "garbage\n".toList) true "foo").isOk =
        (true && (algoHexLen "foo").isSome))
    ∧ ((FilterNew (some "garbage\n".toList) false "sha1").isOk =
        (false && (algoHexLen "sha1").isSome))
    ∧ (algoHexLen "sha1" = some 40)
    ∧ (FilterNew (some "garbage\n".toList) true "sha1" = .ok []) :=
  ⟨by decide,
    (filter_new_error_conditions (some "garbage\n".toList) true "foo" 40
      "garbage\n".toList (by decide)).1,
    (filter_new_error_conditions (some "garbage\n".toList) false "sha1" 40
      "garbage\n".toList (by decide)).1,
    rfl,
    (filter_new_error_conditions (some "garbage\n".toList) true "sha1" 40
      "garbage\n".toList (by decide)).2.2 rfl⟩

/-- C10 witness: a worker result carrying an empty formatted line (for
example when the hashing command produced no output) is ignored and the
directory is classified Good. -/
theorem unparseable_ok_results_ignored_witness :
    ((reCaptures 40 ([] : List Char).dropLast).isNone = true
      ∧ ([TaskResult.ok [] ['x']].all (ignoredOk 40)) = true)
    ∧ (drainStep 40 ([], true) (.ok [] ['x']) = ([], true)
      ∧ verifyDirectory true ['.', '/', 'd'] 40 [.ok [] ['x']] =
          { goodLedgerAppend := [['.', '/', 'd']]
            badLedgerAppend := [], detailAppend := [], sentCode := 0 }) :=
  ⟨⟨by decide, by decide⟩, by
    have h := unparseable_ok_results_ignored 40 [.ok [] ['x']] ['.', '/', 'd']
      true ([], true) [] ['x'] (by decide) (by decide)
    simpa using h⟩

/-- C2: for every file listed in a directory's database, with the worker
results being (in any completion order) the well-formed hashing-command
outputs for the parsed tasks: a path is recorded in `failed_paths` iff
some database line for that path carries a digest differing from the
currently computed one; the directory's exit contribution is 1 (Bad)
exactly when some listed file changed and 0 (Good) otherwise; and the
lines appended to the `to_check_<dir>.txt` detail file are exactly the
failed paths when the directory is Bad, nothing when it is Good. -/
theorem verify_roundtrip (n : Nat) (content : List Char)
    (dg : List Char → List Char) (rs : List TaskResult) (wd : List Char)
    (subdir : Bool) (p : List Char)
    (hperm : rs.Perm (workerResults dg (tasksFromDb n content)))
    (hwf : (tasksFromDb n content).all (wellFormedTask n dg) = true) :
    ((drainAll n rs).1.contains p =
      (tasksFromDb n content).any (fun t => t.2 == p && !(dg t.2 == t.1)))
    ∧ ((verifyDirectory subdir wd n rs).sentCode =
      if (tasksFromDb n content).any (fun t => !(dg t.2 == t.1)) then 1 else 0)
    ∧ ((verifyDirectory subdir wd n rs).detailAppend =
      if (tasksFromDb n content).any (fun t => !(dg t.2 == t.1))
      then (drainAll n rs).1 else []) := by
  have hcw : ∀ t ∈ tasksFromDb n content,
      contrib n (TaskResult.ok (hashLineOf (dg t.2) t.2) t.1) =
        (fun t => if dg t.2 = t.1 then [] else [t.2]) t :=
    fun t ht => contrib_worker n dg t ((List.all_eq_true.mp hwf) t ht)
  have hflatw : (workerResults dg (tasksFromDb n content)).flatMap (contrib n) =
      (tasksFromDb n content).flatMap (fun t => if dg t.2 = t.1 then [] else [t.2]) := by
    unfold workerResults
    rw [List.flatMap_map]
    exact flatMap_congr_mem _ _ _ hcw
  have hperm2 : (rs.flatMap (contrib n)).Perm
      ((tasksFromDb n content).flatMap (fun t => if dg t.2 = t.1 then [] else [t.2])) := by
    rw [← hflatw]
    exact hperm.flatMap_right _
  have hmem : ∀ x, x ∈ rs.flatMap (contrib n) ↔
      ∃ t ∈ tasksFromDb n content, dg t.2 ≠ t.1 ∧ t.2 = x := by
    intro x
    rw [hperm2.mem_iff]
    simp only [List.mem_flatMap]
    constructor
    · rintro ⟨t, ht, hx⟩
      by_cases h : dg t.2 = t.1
      · rw [if_pos h] at hx
        simp at hx
      · rw [if_neg h] at hx
        simp only [List.mem_singleton] at hx
        exact ⟨t, ht, h, hx.symm⟩
    · rintro ⟨t, ht, hne, hx⟩
      refine ⟨t, ht, ?_⟩
      rw [if_neg hne]
      simp [hx]
  have hfst : (drainAll n rs).1 = rs.flatMap (contrib n) := by rw [drainAll_eq]
  have hsnd : (drainAll n rs).2 = (rs.flatMap (contrib n)).isEmpty := by
    rw [drainAll_eq]
  by_cases hA : ∀ t ∈ tasksFromDb n content, dg t.2 = t.1
  · have hnil : rs.flatMap (contrib n) = [] := by
      have h2 : (tasksFromDb n content).flatMap
          (fun t => if dg t.2 = t.1 then [] else [t.2]) = [] := by
        rw [List.flatMap_eq_nil_iff]
        intro t ht
        rw [if_pos (hA t ht)]
      exact List.Perm.eq_nil (h2 ▸ hperm2)
    have hanyf : (tasksFromDb n content).any (fun t => !(dg t.2 == t.1)) = false := by
      rw [List.any_eq_false]
      intro t ht
      simp [hA t ht]
    have hanyp : ∀ q, (tasksFromDb n content).any
        (fun t => t.2 == q && !(dg t.2 == t.1)) = false := by
      intro q
      rw [List.any_eq_false]
      intro t ht
      simp [hA t ht]
    have hvd : verifyDirectory subdir wd n rs =
        { goodLedgerAppend := if subdir then [wd] else []
          badLedgerAppend := [], detailAppend := [], sentCode := 0 } := by
      simp only [verifyDirectory, drainAll_eq, hnil]
      simp
    refine ⟨?_, ?_, ?_⟩
    · rw [hfst, hnil, hanyp p]
      rfl
    · rw [hvd, hanyf]
      rfl
    · rw [hvd, hanyf]
      rfl
  · push_neg at hA
    obtain ⟨t0, ht0, hne0⟩ := hA
    have hne : rs.flatMap (contrib n) ≠ [] := by
      intro hnil
      have : t0.2 ∈ rs.flatMap (contrib n) := (hmem t0.2).mpr ⟨t0, ht0, hne0, rfl⟩
      rw [hnil] at this
      simp at this
    have hanyt : (tasksFromDb n content).any (fun t => !(dg t.2 == t.1)) = true := by
      rw [List.any_eq_true]
      exact ⟨t0, ht0, by simp [hne0]⟩
    refine ⟨?_, ?_, ?_⟩
    · rw [Bool.eq_iff_iff]
      rw [hfst]
      simp only [List.elem_eq_mem, decide_eq_true_eq, List.any_eq_true,
        Bool.and_eq_true, beq_iff_eq, Bool.not_eq_true']
      rw [hmem p]
      constructor
      · rintro ⟨t, ht, hne', hp⟩
        exact ⟨t, ht, hp, by simpa using hne'⟩
      · rintro ⟨t, ht, hp, hne'⟩
        exact ⟨t, ht, by simpa using hne', hp⟩
    · have hvd2 : (drainAll n rs).2 = false := by
        rw [drainAll_eq]
        simpa [List.isEmpty_iff] using hne
      simp only [verifyDirectory, hvd2]
      simp [hanyt]
    · have hvd2 : (drainAll n rs).2 = false := by
        rw [drainAll_eq]
        simpa [List.isEmpty_iff] using hne
      simp only [verifyDirectory, hvd2]
      simp [hanyt]

/-- C2 witness: a one-line sha1 database whose file now hashes to a
different digest: the path is recorded as failed, the directory is Bad
(exit contribution 1) and the detail lines are the failed paths. -/
theorem verify_roundtrip_witness :
    (([TaskResult.ok
        (hashLineOf (List.replicate 40 'b') "./f".toList) (List.replicate 40 'a')]).Perm
      (workerResults (fun _ => List.replicate 40 'b')
        (tasksFromDb 40 (List.replicate 40 'a' ++ "  ./f\n".toList)))
    ∧ (tasksFromDb 40 (List.replicate 40 'a' ++ "  ./f\n".toList)).all
        (wellFormedTask 40 (fun _ => List.replicate 40 'b')) = true)
    ∧ ((drainAll 40 [TaskResult.ok
        (hashLineOf (List.replicate 40 'b') "./f".toList) (List.replicate 40 'a')]).1.contains
          "./f".toList =
      (tasksFromDb 40 (List.replicate 40 'a' ++ "  ./f\n".toList)).any
        (fun t => t.2 == "./f".toList
          && !((fun _ => List.replicate 40 'b') t.2 == t.1))) := by
  have hperm : ([TaskResult.ok
      (hashLineOf (List.replicate 40 'b') "./f".toList) (List.replicate 40 'a')]).Perm
      (workerResults (fun _ => List.replicate 40 'b')
        (tasksFromDb 40 (List.replicate 40 'a' ++ "  ./f\n".toList))) := by
    have : workerResults (fun _ => List.replicate 40 'b')
        (tasksFromDb 40 (List.replicate 40 'a' ++ "  ./f\n".toList)) =
        [TaskResult.ok
          (hashLineOf (List.replicate 40 'b') "./f".toList) (List.replicate 40 'a')] := by
      decide
    rw [this]
  have hwf : (tasksFromDb 40 (List.replicate 40 'a' ++ "  ./f\n".toList)).all
      (wellFormedTask 40 (fun _ => List.replicate 40 'b')) = true := by decide
  exact ⟨⟨hperm, hwf⟩,
    (verify_roundtrip 40 (List.replicate 40 'a' ++ "  ./f\n".toList)
      (fun _ => List.replicate 40 'b')
      [TaskResult.ok
        (hashLineOf (List.replicate 40 'b') "./f".toList) (List.replicate 40 'a')]
      "./d".toList true "./f".toList hperm hwf).1⟩

/-- C3 counterexample: with a pre-existing database whose content is 40
hex characters followed by two spaces and no trailing newline, and an
unchanged one-file tree, the second update run appends a line again: the
first appended line glues onto the unterminated last database line, so its
path is not recovered by the filter's regex on the next run.  The line
count after the second run differs from the count after the first. -/
theorem update_not_idempotent_cex :
    ¬ ((rustLines (updateHashsums cexTree cexHashOut 40 "sha1"
          (updateHashsums cexTree cexHashOut 40 "sha1" cexDb))).length =
        (rustLines (updateHashsums cexTree cexHashOut 40 "sha1" cexDb)).length) := by
  decide

/-- C3 amended: running update a second time on an unchanged tree appends
zero new lines — the database content is unchanged and so is its line
count — provided the database before the first run is empty or
newline-terminated (as every database written by the tool is, and as an
absent database trivially is) and the hashing command emits well-formed
lines: a digest of the algorithm's length, and an echoed path free of
newlines and not ending in a carriage return. -/
theorem update_idempotent (tree : List (List Char))
    (hashOut dg : List Char → List Char) (n : Nat) (algo : String)
    (db : List Char)
    (hdb : db = [] ∨ db.getLast? = some '\n')
    (hout : ∀ p ∈ tree, hashOut p = hashLineOf (dg p) p)
    (hwf : ∀ p ∈ tree, (dg p).length = n ∧ (dg p).all isXDigit = true ∧
      (∀ c ∈ p, c ≠ '\n') ∧ p.getLast? ≠ some '\r') :
    updateHashsums tree hashOut n algo (updateHashsums tree hashOut n algo db)
      = updateHashsums tree hashOut n algo db
    ∧ (rustLines (updateHashsums tree hashOut n algo
          (updateHashsums tree hashOut n algo db))).length
      = (rustLines (updateHashsums tree hashOut n algo db)).length := by
  have hmap : (tree.filter (filterKeeps n algo db)).map hashOut =
      ((tree.filter (filterKeeps n algo db)).map
        (fun p => dg p ++ ' ' :: ' ' :: p)).map (· ++ ['\n']) := by
    rw [List.map_map]
    apply List.map_congr_left
    intro p hp
    have hpt : p ∈ tree := (List.mem_filter.mp hp).1
    rw [hout p hpt]
    rfl
  have hLcond : ∀ l ∈ (tree.filter (filterKeeps n algo db)).map
      (fun p => dg p ++ ' ' :: ' ' :: p),
      (∀ c ∈ l, c ≠ '\n') ∧ l.getLast? ≠ some '\r' := by
    intro l hl
    obtain ⟨p, hp, rfl⟩ := List.mem_map.mp hl
    have hpt : p ∈ tree := (List.mem_filter.mp hp).1
    obtain ⟨h1, h2, h3, h4⟩ := hwf p hpt
    constructor
    · intro c hc
      rcases List.mem_append.mp hc with hcd | hcp
      · intro he
        have := (List.all_eq_true.mp h2) c hcd
        rw [he] at this
        simp [isXDigit] at this
      · rcases hcp with _ | ⟨_, hcp⟩
        · intro he
          cases he
        · rcases hcp with _ | ⟨_, hcp⟩
          · intro he
            cases he
          · exact h3 c hcp
    · have hne : (' ' :: ' ' :: p) ≠ [] := by simp
      rw [List.getLast?_append_of_ne_nil _ hne]
      cases hp2 : p with
      | nil => simp
      | cons q qs =>
        have hsh : (' ' :: ' ' :: (q :: qs) : List Char) = [' ', ' '] ++ q :: qs := rfl
        rw [hsh, List.getLast?_append_of_ne_nil _ (List.cons_ne_nil q qs), ← hp2]
        exact h4
  have hchunk : rustLines (((tree.filter (filterKeeps n algo db)).map hashOut).flatten)
      = (tree.filter (filterKeeps n algo db)).map (fun p => dg p ++ ' ' :: ' ' :: p) := by
    rw [hmap]
    exact rustLines_flatten _ hLcond
  have hlines1 : rustLines (updateHashsums tree hashOut n algo db) =
      rustLines db ++ (tree.filter (filterKeeps n algo db)).map
        (fun p => dg p ++ ' ' :: ' ' :: p) := by
    unfold updateHashsums
    rw [rustLines_append _ _ hdb, hchunk]
  have halready : filterAlready n (updateHashsums tree hashOut n algo db) =
      filterAlready n db ++ tree.filter (filterKeeps n algo db) := by
    unfold filterAlready
    rw [hlines1, List.filterMap_append]
    congr 1
    rw [List.filterMap_map]
    have hco : ∀ p ∈ tree.filter (filterKeeps n algo db),
        ((fun l => (reCaptures n l).map (·.2)) ∘ (fun p => dg p ++ ' ' :: ' ' :: p)) p
          = some p := by
      intro p hp
      have hpt : p ∈ tree := (List.mem_filter.mp hp).1
      obtain ⟨h1, h2, h3, _⟩ := hwf p hpt
      simp only [Function.comp]
      rw [reCaptures_wellformed n (dg p) p h1 h2 h3]
      rfl
    rw [filterMap_congr_mem _ _ _ hco]
    simp
  have hkeep : ∀ p ∈ tree,
      filterKeeps n algo (updateHashsums tree hashOut n algo db) p = false := by
    intro p hp
    by_cases hk : filterKeeps n algo db p = true
    · have hmem : p ∈ tree.filter (filterKeeps n algo db) :=
        List.mem_filter.mpr ⟨hp, hk⟩
      have hin : p ∈ filterAlready n (updateHashsums tree hashOut n algo db) := by
        rw [halready]
        exact List.mem_append.mpr (Or.inr hmem)
      simp [filterKeeps, hin]
    · have hk' : filterKeeps n algo db p = false := by
        cases hb : filterKeeps n algo db p
        · rfl
        · exact absurd hb hk
      unfold filterKeeps at hk'
      rcases Bool.and_eq_false_iff.mp hk' with hc | hn
      · have hc' : (filterAlready n db).contains p = true := by
          cases hb : (filterAlready n db).contains p
          · rw [hb] at hc
            simp at hc
          · rfl
        have hin : p ∈ filterAlready n db := by
          simpa [List.elem_eq_mem] using hc'
        have hin2 : p ∈ filterAlready n (updateHashsums tree hashOut n algo db) := by
          rw [halready]
          exact List.mem_append.mpr (Or.inl hin)
        simp [filterKeeps, hin2]
      · unfold filterKeeps
        rw [hn]
        simp
  have hfilter2 : tree.filter
      (filterKeeps n algo (updateHashsums tree hashOut n algo db)) = [] := by
    rw [List.filter_eq_nil_iff]
    intro p hp
    rw [hkeep p hp]
    simp
  have heq : updateHashsums tree hashOut n algo
      (updateHashsums tree hashOut n algo db) =
      updateHashsums tree hashOut n algo db := by
    have hdef : updateHashsums tree hashOut n algo
        (updateHashsums tree hashOut n algo db) =
        updateHashsums tree hashOut n algo db ++
          ((tree.filter (filterKeeps n algo
            (updateHashsums tree hashOut n algo db))).map hashOut).flatten := rfl
    rw [hdef, hfilter2]
    simp
  exact ⟨heq, by rw [heq]⟩

/-- C3 amended claim witness: a concrete unchanged one-file tree over an
empty initial database, with well-formed sha1-length hash output. -/
theorem update_idempotent_witness :
    (((([] : List Char) = [] ∨ ([] : List Char).getLast? = some '\n'))
      ∧ (∀ p ∈ cexTree, cexHashOut p = hashLineOf (List.replicate 40 'a') p)
      ∧ (∀ p ∈ cexTree, (List.replicate 40 'a').length = 40
          ∧ (List.replicate 40 'a').all isXDigit = true
          ∧ (∀ c ∈ p, c ≠ '\n') ∧ p.getLast? ≠ some '\r'))
    ∧ (updateHashsums cexTree cexHashOut 40 "sha1"
          (updateHashsums cexTree cexHashOut 40 "sha1" [])
        = updateHashsums cexTree cexHashOut 40 "sha1" []
      ∧ (rustLines (updateHashsums cexTree cexHashOut 40 "sha1"
            (updateHashsums cexTree cexHashOut 40 "sha1" []))).length
        = (rustLines (updateHashsums cexTree cexHashOut 40 "sha1" [])).length) :=
  ⟨⟨Or.inl rfl, by decide, by decide⟩,
    update_idempotent cexTree cexHashOut (fun _ => List.replicate 40 'a')
      40 "sha1" [] (Or.inl rfl) (by decide) (by decide)⟩

/-- C9: if the known-good and known-bad ledger lists of the current
generation are disjoint before a batch verify run, they are still disjoint
afterwards; a directory already recorded in either list is never among the
directories processed (and so is never appended again); and every
processed directory is appended to exactly one of the two ledgers. -/
theorem ledger_exclusive (entries : List DirEntry) (good bad : List (List Char))
    (n : Nat) (rsOf : List Char → List TaskResult)
    (hdisj : good.all (fun x => !bad.contains x) = true) :
    ((batchLedgerAfter entries good bad n rsOf).1.all
        (fun x => !(batchLedgerAfter entries good bad n rsOf).2.contains x) = true)
    ∧ ((gatherDirectoriesToProcess entries good bad).all
        (fun d => !(good.contains d || bad.contains d)) = true)
    ∧ ((gatherDirectoriesToProcess entries good bad).all
        (fun d => ((verifyDirectory true d n (rsOf d)).goodLedgerAppend
            ++ (verifyDirectory true d n (rsOf d)).badLedgerAppend) == [d]) = true) := by
  have hgather : ∀ d ∈ gatherDirectoriesToProcess entries good bad,
      d ∉ good ∧ d ∉ bad := by
    intro d hd
    obtain ⟨e, hef, hpath⟩ := List.mem_map.mp hd
    obtain ⟨_, hcond⟩ := List.mem_filter.mp hef
    simp only [Bool.and_eq_true, Bool.not_eq_true', Bool.or_eq_false_iff,
      List.elem_eq_mem, decide_eq_false_iff_not] at hcond
    subst hpath
    exact ⟨hcond.1.2.1, hcond.1.2.2⟩
  have happG : ∀ d, (verifyDirectory true d n (rsOf d)).goodLedgerAppend =
      if (drainAll n (rsOf d)).2 then [d] else [] := by
    intro d
    cases h : (drainAll n (rsOf d)).2 <;> simp [verifyDirectory, h]
  have happB : ∀ d, (verifyDirectory true d n (rsOf d)).badLedgerAppend =
      if (drainAll n (rsOf d)).2 then [] else [d] := by
    intro d
    cases h : (drainAll n (rsOf d)).2 <;> simp [verifyDirectory, h]
  have hmemG : ∀ x, x ∈ (gatherDirectoriesToProcess entries good bad).flatMap
      (fun d => (verifyDirectory true d n (rsOf d)).goodLedgerAppend) →
      x ∈ gatherDirectoriesToProcess entries good bad
        ∧ (drainAll n (rsOf x)).2 = true := by
    intro x hx
    obtain ⟨d, hd, hxd⟩ := List.mem_flatMap.mp hx
    rw [happG d] at hxd
    by_cases h : (drainAll n (rsOf d)).2 = true
    · rw [if_pos h] at hxd
      simp only [List.mem_singleton] at hxd
      subst hxd
      exact ⟨hd, h⟩
    · rw [if_neg h] at hxd
      simp at hxd
  have hmemB : ∀ x, x ∈ (gatherDirectoriesToProcess entries good bad).flatMap
      (fun d => (verifyDirectory true d n (rsOf d)).badLedgerAppend) →
      x ∈ gatherDirectoriesToProcess entries good bad
        ∧ (drainAll n (rsOf x)).2 = false := by
    intro x hx
    obtain ⟨d, hd, hxd⟩ := List.mem_flatMap.mp hx
    rw [happB d] at hxd
    by_cases h : (drainAll n (rsOf d)).2 = true
    · rw [if_pos h] at hxd
      simp at hxd
    · rw [if_neg h] at hxd
      simp only [List.mem_singleton] at hxd
      subst hxd
      exact ⟨hd, by simpa using h⟩
  have hdisj' : ∀ x ∈ good, x ∉ bad := by
    intro x hx
    have := (List.all_eq_true.mp hdisj) x hx
    simpa [List.elem_eq_mem] using this
  refine ⟨?_, ?_, ?_⟩
  · rw [List.all_eq_true]
    intro x hx
    simp only [batchLedgerAfter] at hx ⊢
    have hxg := List.mem_append.mp hx
    have hnotbad : x ∉ bad ++ (gatherDirectoriesToProcess entries good bad).flatMap
        (fun d => (verifyDirectory true d n (rsOf d)).badLedgerAppend) := by
      intro hxb
      rcases List.mem_append.mp hxb with hxb | hxb
      · rcases hxg with hxg | hxg
        · exact hdisj' x hxg hxb
        · exact (hgather x (hmemG x hxg).1).2 hxb
      · obtain ⟨hxd, hfail⟩ := hmemB x hxb
        rcases hxg with hxg | hxg
        · exact (hgather x hxd).1 hxg
        · have := (hmemG x hxg).2
          rw [this] at hfail
          cases hfail
    simpa [List.elem_eq_mem] using hnotbad
  · rw [List.all_eq_true]
    intro d hd
    have := hgather d hd
    simp [List.elem_eq_mem, this.1, this.2]
  · rw [List.all_eq_true]
    intro d hd
    cases h : (drainAll n (rsOf d)).2 <;> simp [verifyDirectory, h]

/-- C9 witness: one fresh directory, empty ledgers, empty result streams:
the run appends the directory to exactly one ledger and disjointness is
preserved. -/
theorem ledger_exclusive_witness :
    (([] : List (List Char)).all (fun x => !([] : List (List Char)).contains x) = true)
    ∧ (((batchLedgerAfter [⟨"./a".toList, true, true⟩] [] [] 40 (fun _ => [])).1.all
        (fun x => !(batchLedgerAfter [⟨"./a".toList, true, true⟩] [] [] 40
            (fun _ => [])).2.contains x) = true)
      ∧ ((gatherDirectoriesToProcess [⟨"./a".toList, true, true⟩] [] []).all
          (fun d => !(([] : List (List Char)).contains d
            || ([] : List (List Char)).contains d)) = true)
      ∧ ((gatherDirectoriesToProcess [⟨"./a".toList, true, true⟩] [] []).all
          (fun d => ((verifyDirectory true d 40 ((fun _ => ([] : List TaskResult)) d)).goodLedgerAppend
              ++ (verifyDirectory true d 40 ((fun _ => ([] : List TaskResult)) d)).badLedgerAppend)
            == [d]) = true)) :=
  ⟨by decide,
    ledger_exclusive [⟨"./a".toList, true, true⟩] [] [] 40 (fun _ => []) (by decide)⟩

end Arkhash
